import Mathlib

/-!
Verification of the page-replacement simulator (`new.py`).

The core of the program is three page-replacement algorithms
(`fifo_page_replacement`, `lru_page_replacement`, `optimal_page_replacement`),
each a loop over the reference trace that maintains a `physical_memory` list,
counts faults, and snapshots the memory after every step, plus the input
validation (`validate_input`) and dispatch (`on_submit`) around them.

Pages are opaque equality-comparable tokens; we embed them as an arbitrary
type `α` with decidable equality (the program uses Python strings).
The wall-clock `run_time` value returned by each algorithm is not modelled
(it is a measurement, not a function of the inputs); all other outputs are.
-/

namespace VMM

variable {α : Type} {σ : Type} [DecidableEq α]

/-- The tuple returned by each algorithm in `new.py`
(`page_faults, physical_memory, movements, run_time, iterations`),
minus the wall-clock `run_time`. -/
structure RunResult (α : Type) where
  page_faults : Nat
  physical_memory : List α
  movements : List (List α)
  iterations : Nat
deriving DecidableEq, Repr

/-- The loop shared by all three algorithms in `new.py`: iterate over the
remaining trace (second argument is the current 0-based position `i` from
`enumerate`), update the policy state `s` with `step`, count a fault exactly
when the referenced page is not in `memOf s` (the `if page not in
physical_memory` test each algorithm performs), and append a copy of the
memory to `movements` after every step. -/
def goRun (step : σ → Nat → α → σ) (memOf : σ → List α) :
    List α → Nat → σ → RunResult α
  | [], _, s => ⟨0, memOf s, [], 0⟩
  | p :: ps, i, s =>
    let s2 := step s i p
    let r := goRun step memOf ps (i + 1) s2
    ⟨(if p ∈ memOf s then 0 else 1) + r.page_faults, r.physical_memory,
      memOf s2 :: r.movements, 1 + r.iterations⟩

/-- Run a policy from its initial state over a whole trace (loop entry:
`physical_memory = []`, position 0). -/
def runPolicy (step : σ → Nat → α → σ) (memOf : σ → List α) (init : σ)
    (pages : List α) : RunResult α :=
  goRun step memOf pages 0 init

/-- One iteration of the FIFO loop body (`new.py` lines 25-31): on a hit the
memory is unchanged; on a miss with room the page is appended; otherwise
`physical_memory.pop(0)` removes the front (the list is nonempty there
whenever `frames ≥ 1`, which is the only case the program reaches) and the
page is appended. -/
def fifoStep (frames : Nat) (mem : List α) (_i : Nat) (p : α) : List α :=
  if p ∈ mem then mem
  else if mem.length < frames then mem ++ [p]
  else mem.tail ++ [p]

/-- `fifo_page_replacement(pages, frames)` from `new.py`. -/
def fifo_page_replacement (pages : List α) (frames : Nat) : RunResult α :=
  runPolicy (fifoStep frames) id [] pages

/-- Fold mirroring Python's `min(..., key=...)`: scan left to right, replace
the current best only on a strictly smaller key, so the first minimal
element wins. -/
def pyMinFold (key : α → Nat) : List α → α → α
  | [], best => best
  | x :: xs, best => pyMinFold key xs (if key x < key best then x else best)

/-- Python's `min(l, key=key)`: `none` on the empty list (where Python
raises), otherwise the first element attaining the minimal key. -/
def pyMin (key : α → Nat) : List α → Option α
  | [] => none
  | x :: xs => some (pyMinFold key xs x)

/-- The state of the LRU loop: the `physical_memory` list plus the
`page_indices` dictionary. The dictionary is embedded as a total function
(initially the constant 0); the program only ever reads `page_indices[p]`
for resident pages `p`, all of which have been written. -/
structure LruSt (α : Type) where
  mem : List α
  idx : α → Nat

/-- One iteration of the LRU loop body (`new.py` lines 56-71): on a hit the
page is removed and re-appended (moved to the most-recently-used end); on a
miss with room it is appended; on a miss with a full memory
`min(physical_memory, key=lambda p: page_indices[p])` is removed and the
page appended. In every case `page_indices[page] = i` is then set. -/
def lruStep (frames : Nat) (s : LruSt α) (i : Nat) (p : α) : LruSt α :=
  let mem := s.mem
  let mem2 :=
    if p ∈ mem then mem.erase p ++ [p]
    else if mem.length < frames then mem ++ [p]
    else
      match pyMin s.idx mem with
      | some q => mem.erase q ++ [p]
      | none => mem ++ [p]
  ⟨mem2, fun x => if x = p then i else s.idx x⟩

/-- `lru_page_replacement(pages, frames)` from `new.py`. -/
def lru_page_replacement (pages : List α) (frames : Nat) : RunResult α :=
  runPolicy (lruStep frames) LruSt.mem ⟨[], fun _ => 0⟩ pages

/-- The eviction scan of `optimal_page_replacement` (`new.py` lines 100-110):
walk `physical_memory` keeping the resident page whose first occurrence in
`future_pages` is farthest (`index > farthest_index`, so the first maximal
one is kept); a resident page not occurring in `future_pages` is chosen
immediately (`break`). `farthest` starts at `-1` and `best` at `None`. -/
def findVictim (future : List α) : List α → Int → Option α → Option α
  | [], _, best => best
  | f :: fs, farthest, best =>
    if f ∈ future then
      let index : Int := future.indexOf f
      if farthest < index then findVictim future fs index (some f)
      else findVictim future fs farthest best
    else some f

/-- One iteration of the Optimal loop body (`new.py` lines 95-112): on a hit
the memory is unchanged; on a miss with room the page is appended; on a miss
with a full memory the victim chosen by the scan over
`future_pages = pages[i+1:]` is removed and the page appended. The `none`
fallback is unreachable when `frames ≥ 1` (the memory is then nonempty, and
the scan always produces a page; with `frames = 0` Python raises). -/
def optStep (pages : List α) (frames : Nat) (mem : List α) (i : Nat)
    (p : α) : List α :=
  if p ∈ mem then mem
  else if mem.length < frames then mem ++ [p]
  else
    let future := pages.drop (i + 1)
    match findVictim future mem (-1) none with
    | some q => mem.erase q ++ [p]
    | none => mem ++ [p]

/-- `optimal_page_replacement(pages, frames)` from `new.py`. -/
def optimal_page_replacement (pages : List α) (frames : Nat) : RunResult α :=
  runPolicy (optStep pages frames) id [] pages

/-- Iterate a policy step over a list starting from position `i` — used to
name the state reached after a prefix of the trace. -/
def stepsFrom (step : σ → Nat → α → σ) : List α → Nat → σ → σ
  | [], _, s => s
  | p :: ps, i, s => stepsFrom step ps (i + 1) (step s i p)

/-- The LRU state immediately before processing trace position `i`. -/
def lruStateAt (pages : List α) (frames i : Nat) : LruSt α :=
  stepsFrom (lruStep frames) (pages.take i) 0 ⟨[], fun _ => 0⟩

/-- The Optimal-policy memory immediately before processing position `i`. -/
def optMemAt (pages : List α) (frames i : Nat) : List α :=
  stepsFrom (optStep pages frames) (pages.take i) 0 []

/-- Accumulator form of the index of the last occurrence of `p` in a list
whose first element sits at position `i`; `acc` is returned when `p` does
not occur. -/
def lastIdxFrom (p : α) : List α → Nat → Nat → Nat
  | [], _, acc => acc
  | x :: xs, i, acc => lastIdxFrom p xs (i + 1) (if x = p then i else acc)

/-- Index of the last occurrence of `p` in `l` (0 when `p` does not occur):
the last-access step of a page within a processed trace prefix. -/
def lastIdx (l : List α) (p : α) : Nat :=
  lastIdxFrom p l 0 0

/-- The closed set of values of the `algorithm_var` dropdown in `new.py`
("FIFO", "LRU", "Optimal"). -/
inductive Policy where
  | FIFO
  | LRU
  | Optimal
deriving DecidableEq, Repr

/-- The dispatch performed by `on_submit` (`new.py` lines 139-144). -/
def runAlgorithm (algorithm : Policy) (pages : List α) (frames : Nat) :
    RunResult α :=
  match algorithm with
  | Policy.FIFO => fifo_page_replacement pages frames
  | Policy.LRU => lru_page_replacement pages frames
  | Policy.Optimal => optimal_page_replacement pages frames

/-- Value of an ASCII digit string, as computed by Python's `int`. -/
def digitsToNat (l : List Char) : Nat :=
  l.foldl (fun acc c => 10 * acc + (c.toNat - 48)) 0

/-- Python's `frames.isdigit()` followed by `int(frames)` (`new.py` line
125), for ASCII digit strings: `some` of the value exactly when the string
is nonempty and all characters are digits. -/
def parseFrames (s : String) : Option Nat :=
  if s.data ≠ [] ∧ s.data.all Char.isDigit then some (digitsToNat s.data)
  else none

/-- `validate_input(pages, frames)` from `new.py` (lines 121-128): reject an
empty page list, and reject a frames entry that is not a digit string or
whose value is `<= 0`. -/
def validate_input (pages : List α) (framesStr : String) : Bool :=
  if pages.isEmpty then false
  else
    match parseFrames framesStr with
    | none => false
    | some n => decide (0 < n)

/-- The simulation entry point: the `on_submit` flow of `new.py` minus the
GUI rendering — validate the inputs, and only then run the selected
algorithm. A rejected input surfaces as the error the program reports
through its "Input Error" message box. -/
def simulate (pages : List α) (framesStr : String) (algorithm : Policy) :
    Except String (RunResult α) :=
  if validate_input pages framesStr then
    Except.ok (runAlgorithm algorithm pages ((parseFrames framesStr).getD 0))
  else
    Except.error "Input Error"

/-- Position of the next occurrence of `x` in the remaining trace `l`
(`⊤` when `x` never occurs again). -/
def nextUse (l : List α) (x : α) : ℕ∞ :=
  if x ∈ l then (l.indexOf x : ℕ∞) else ⊤

/-- Minimal number of faults any demand-paging policy with `k` frames can
achieve serving the trace from resident set `C`: on a hit nothing changes;
on a miss the page is admitted, after evicting a best-chosen resident page
when the set is full. The reference against which the program's
`optimal_page_replacement` is compared. -/
def cost (k : Nat) : List α → Finset α → Nat
  | [], _ => 0
  | p :: ps, C =>
    if p ∈ C then cost k ps C
    else
      1 +
        if C.card < k then cost k ps (insert p C)
        else if h : 0 < C.card then
          C.inf' (Finset.card_pos.mp h)
            (fun q => cost k ps (insert p (C.erase q)))
        else 0

/-! ### Generic facts about the shared loop -/

theorem goRun_movements_length (step : σ → Nat → α → σ) (memOf : σ → List α) :
    ∀ (ps : List α) (i : Nat) (s : σ),
      (goRun step memOf ps i s).movements.length = ps.length := by
  intro ps
  induction ps with
  | nil => intro i s; rfl
  | cons p ps ih => intro i s; simp [goRun, ih]

theorem goRun_iterations (step : σ → Nat → α → σ) (memOf : σ → List α) :
    ∀ (ps : List α) (i : Nat) (s : σ),
      (goRun step memOf ps i s).iterations = ps.length := by
  intro ps
  induction ps with
  | nil => intro i s; rfl
  | cons p ps ih => intro i s; simp [goRun, ih, Nat.add_comm]

/-- The fault count of the loop equals the number of steps whose referenced
page is absent from the memory immediately before that step (the memory
before step `j` being the one snapshotted after step `j - 1`, and `memOf s`
before the first step). -/
theorem goRun_faults_eq_countP (step : σ → Nat → α → σ) (memOf : σ → List α) :
    ∀ (ps : List α) (i : Nat) (s : σ),
      (goRun step memOf ps i s).page_faults =
        (ps.zip (memOf s :: (goRun step memOf ps i s).movements)).countP
          (fun pr => decide (pr.1 ∉ pr.2)) := by
  intro ps
  induction ps with
  | nil => intro i s; rfl
  | cons p ps ih =>
    intro i s
    simp only [goRun, List.zip_cons_cons, List.countP_cons]
    rw [ih (i + 1) (step s i p)]
    by_cases hp : p ∈ memOf s <;> simp [hp, Nat.add_comm]

/-- Any property of the memory preserved by the step function holds for
every snapshot the loop records. -/
theorem goRun_movements_pred (step : σ → Nat → α → σ) (memOf : σ → List α)
    (P : List α → Prop) (hP : ∀ s i p, P (memOf s) → P (memOf (step s i p))) :
    ∀ (ps : List α) (i : Nat) (s : σ), P (memOf s) →
      ∀ m ∈ (goRun step memOf ps i s).movements, P m := by
  intro ps
  induction ps with
  | nil => intro i s _ m hm; simp [goRun] at hm
  | cons p ps ih =>
    intro i s hs m hm
    simp only [goRun, List.mem_cons] at hm
    rcases hm with rfl | hm
    · exact hP s i p hs
    · exact ih (i + 1) (step s i p) (hP s i p hs) m hm

/-! ### Membership facts about the eviction scans -/

theorem pyMinFold_mem (key : α → Nat) :
    ∀ (l : List α) (b : α), pyMinFold key l b = b ∨ pyMinFold key l b ∈ l := by
  intro l
  induction l with
  | nil => intro b; exact Or.inl rfl
  | cons x xs ih =>
    intro b
    simp only [pyMinFold]
    by_cases hx : key x < key b
    · rcases ih x with h | h
      · right; rw [if_pos hx] at *; simp [h]
      · right; rw [if_pos hx] at *; simp [h]
    · rcases ih b with h | h
      · left; rw [if_neg hx] at *; exact h
      · right; rw [if_neg hx] at *; simp [h]

theorem pyMin_mem {key : α → Nat} {l : List α} {q : α}
    (h : pyMin key l = some q) : q ∈ l := by
  cases l with
  | nil => exact absurd h (by simp [pyMin])
  | cons x xs =>
    simp only [pyMin, Option.some_inj] at h
    rcases pyMinFold_mem key xs x with h2 | h2
    · rw [← h, h2]; exact List.mem_cons_self x xs
    · rw [← h]; exact List.mem_cons_of_mem x h2

theorem findVictim_mem (future : List α) :
    ∀ (mem : List α) (farthest : Int) (best : Option α) (q : α),
      findVictim future mem farthest best = some q →
      q ∈ mem ∨ best = some q := by
  intro mem
  induction mem with
  | nil => intro farthest best q h; exact Or.inr h
  | cons f fs ih =>
    intro farthest best q h
    simp only [findVictim] at h
    by_cases hf : f ∈ future
    · rw [if_pos hf] at h
      by_cases hcmp : farthest < (future.indexOf f : Int)
      · rw [if_pos hcmp] at h
        rcases ih _ _ _ h with h2 | h2
        · exact Or.inl (List.mem_cons_of_mem f h2)
        · simp only [Option.some_inj] at h2
          exact Or.inl (by rw [← h2]; exact List.mem_cons_self f fs)
      · rw [if_neg hcmp] at h
        rcases ih _ _ _ h with h2 | h2
        · exact Or.inl (List.mem_cons_of_mem f h2)
        · exact Or.inr h2
    · rw [if_neg hf] at h
      simp only [Option.some_inj] at h
      exact Or.inl (by rw [← h]; exact List.mem_cons_self f fs)

theorem findVictim_isSome_of_some (future : List α) :
    ∀ (mem : List α) (farthest : Int) (b : α),
      ∃ q, findVictim future mem farthest (some b) = some q := by
  intro mem
  induction mem with
  | nil => intro farthest b; exact ⟨b, rfl⟩
  | cons f fs ih =>
    intro farthest b
    simp only [findVictim]
    by_cases hf : f ∈ future
    · rw [if_pos hf]
      by_cases hcmp : farthest < (future.indexOf f : Int)
      · rw [if_pos hcmp]; exact ih _ f
      · rw [if_neg hcmp]; exact ih _ b
    · rw [if_neg hf]; exact ⟨f, rfl⟩

/-- On a nonempty memory, the eviction scan of the Optimal policy always
produces a victim. -/
theorem findVictim_entry_isSome (future : List α) (f : α) (fs : List α) :
    ∃ q, findVictim future (f :: fs) (-1) none = some q := by
  simp only [findVictim]
  by_cases hf : f ∈ future
  · rw [if_pos hf]
    have hcmp : (-1 : Int) < (future.indexOf f : Int) := by
      have : (0 : Int) ≤ (future.indexOf f : Int) := Int.natCast_nonneg _
      omega
    rw [if_pos hcmp]
    exact findVictim_isSome_of_some future fs _ f
  · rw [if_neg hf]; exact ⟨f, rfl⟩

/-! ### Step preservation of the frame-set invariants -/

/-- The FIFO step keeps the memory duplicate-free and within capacity. -/
theorem fifoStep_inv (frames : Nat) (h1 : 1 ≤ frames) (mem : List α)
    (i : Nat) (p : α) (hnd : mem.Nodup) (hlen : mem.length ≤ frames) :
    (fifoStep frames mem i p).Nodup ∧
      (fifoStep frames mem i p).length ≤ frames := by
  unfold fifoStep
  by_cases hp : p ∈ mem
  · simp [hp, hnd, hlen]
  · rw [if_neg hp]
    by_cases hroom : mem.length < frames
    · rw [if_pos hroom]
      refine ⟨?_, by simp; omega⟩
      simp [List.nodup_append, hnd, hp]
    · rw [if_neg hroom]
      cases mem with
      | nil => simp at hroom; omega
      | cons m ms =>
        simp only [List.tail_cons]
        constructor
        · simp only [List.nodup_cons] at hnd
          simp [List.nodup_append, hnd.2]
          intro hpms
          exact hp (List.mem_cons_of_mem m hpms)
        · simp only [List.length_cons] at hlen hroom ⊢
          simp
          omega

/-- The LRU step keeps the memory duplicate-free and within capacity. -/
theorem lruStep_inv (frames : Nat) (h1 : 1 ≤ frames) (s : LruSt α)
    (i : Nat) (p : α) (hnd : s.mem.Nodup) (hlen : s.mem.length ≤ frames) :
    (lruStep frames s i p).mem.Nodup ∧
      (lruStep frames s i p).mem.length ≤ frames := by
  unfold lruStep
  simp only
  by_cases hp : p ∈ s.mem
  · rw [if_pos hp]
    have hns : p ∉ s.mem.erase p := fun hc =>
      (((hnd.mem_erase_iff).mp hc).1) rfl
    constructor
    · simp [List.nodup_append, hnd.erase p, hns]
    · have := List.length_erase_of_mem hp
      simp only [List.length_append, List.length_cons, List.length_nil, this]
      have : 1 ≤ s.mem.length := List.length_pos.mpr (List.ne_nil_of_mem hp)
      omega
  · rw [if_neg hp]
    by_cases hroom : s.mem.length < frames
    · rw [if_pos hroom]
      refine ⟨by simp [List.nodup_append, hnd, hp], by simp; omega⟩
    · rw [if_neg hroom]
      cases hq : pyMin s.idx s.mem with
      | none =>
        refine ⟨by simp [List.nodup_append, hnd, hp], ?_⟩
        have : s.mem = [] := by
          cases hm : s.mem with
          | nil => rfl
          | cons a l => rw [hm] at hq; simp [pyMin] at hq
        rw [this] at hroom
        simp at hroom
        omega
      | some q =>
        have hqm : q ∈ s.mem := pyMin_mem hq
        have hns : p ∉ s.mem.erase q := fun hc =>
          hp (((hnd.mem_erase_iff).mp hc).2)
        constructor
        · simp [List.nodup_append, hnd.erase q, hns]
        · have := List.length_erase_of_mem hqm
          simp only [List.length_append, List.length_cons, List.length_nil,
            this]
          have : 1 ≤ s.mem.length :=
            List.length_pos.mpr (List.ne_nil_of_mem hqm)
          omega

/-- The Optimal step keeps the memory duplicate-free and within capacity. -/
theorem optStep_inv (pages : List α) (frames : Nat) (h1 : 1 ≤ frames)
    (mem : List α) (i : Nat) (p : α) (hnd : mem.Nodup)
    (hlen : mem.length ≤ frames) :
    (optStep pages frames mem i p).Nodup ∧
      (optStep pages frames mem i p).length ≤ frames := by
  unfold optStep
  by_cases hp : p ∈ mem
  · simp [hp, hnd, hlen]
  · rw [if_neg hp]
    by_cases hroom : mem.length < frames
    · rw [if_pos hroom]
      refine ⟨by simp [List.nodup_append, hnd, hp], by simp; omega⟩
    · rw [if_neg hroom]
      simp only
      cases hq : findVictim (pages.drop (i + 1)) mem (-1) none with
      | none =>
        cases mem with
        | nil => simp at hroom; omega
        | cons f fs =>
          obtain ⟨q, hq2⟩ := findVictim_entry_isSome (pages.drop (i + 1)) f fs
          rw [hq] at hq2
          exact absurd hq2 (by simp)
      | some q =>
        have hqm : q ∈ mem := by
          rcases findVictim_mem _ _ _ _ _ hq with h | h
          · exact h
          · exact absurd h (by simp)
        have hns : p ∉ mem.erase q := fun hc =>
          hp (((hnd.mem_erase_iff).mp hc).2)
        constructor
        · simp [List.nodup_append, hnd.erase q, hns]
        · have := List.length_erase_of_mem hqm
          simp only [List.length_append, List.length_cons, List.length_nil,
            this]
          have : 1 ≤ mem.length := List.length_pos.mpr (List.ne_nil_of_mem hqm)
          omega

/-! ### C5: snapshot count and frame-set invariants -/

/-- C5: for every trace and capacity `≥ 1`, under each policy the snapshot
sequence has length equal to the trace length, and every snapshot is
duplicate-free with size at most the capacity (hence between 0 and the
capacity). -/
theorem snapshots_length_and_frame_invariants {α : Type} [DecidableEq α]
    (pages : List α) (frames : Nat) (h1 : 1 ≤ frames) :
    ((fifo_page_replacement pages frames).movements.length = pages.length ∧
      ∀ m ∈ (fifo_page_replacement pages frames).movements,
        m.Nodup ∧ m.length ≤ frames) ∧
    ((lru_page_replacement pages frames).movements.length = pages.length ∧
      ∀ m ∈ (lru_page_replacement pages frames).movements,
        m.Nodup ∧ m.length ≤ frames) ∧
    ((optimal_page_replacement pages frames).movements.length = pages.length ∧
      ∀ m ∈ (optimal_page_replacement pages frames).movements,
        m.Nodup ∧ m.length ≤ frames) := by
  refine ⟨⟨goRun_movements_length _ _ _ _ _, ?_⟩,
    ⟨goRun_movements_length _ _ _ _ _, ?_⟩,
    ⟨goRun_movements_length _ _ _ _ _, ?_⟩⟩
  · exact goRun_movements_pred _ id (fun m => m.Nodup ∧ m.length ≤ frames)
      (fun s i p hs => fifoStep_inv frames h1 s i p hs.1 hs.2)
      pages 0 [] ⟨List.nodup_nil, by simp⟩
  · exact goRun_movements_pred _ LruSt.mem
      (fun m => m.Nodup ∧ m.length ≤ frames)
      (fun s i p hs => lruStep_inv frames h1 s i p hs.1 hs.2)
      pages 0 ⟨[], fun _ => 0⟩ ⟨List.nodup_nil, by simp⟩
  · exact goRun_movements_pred _ id (fun m => m.Nodup ∧ m.length ≤ frames)
      (fun s i p hs => optStep_inv pages frames h1 s i p hs.1 hs.2)
      pages 0 [] ⟨List.nodup_nil, by simp⟩

/-- C5 witness: the invariants instantiated on a concrete trace. -/
theorem snapshots_length_and_frame_invariants_witness :
    ((fifo_page_replacement (["A", "B", "A"] : List String) 2).movements.length
        = 3 ∧
      ∀ m ∈ (fifo_page_replacement (["A", "B", "A"] : List String)
          2).movements, m.Nodup ∧ m.length ≤ 2) ∧
    ((lru_page_replacement (["A", "B", "A"] : List String) 2).movements.length
        = 3 ∧
      ∀ m ∈ (lru_page_replacement (["A", "B", "A"] : List String)
          2).movements, m.Nodup ∧ m.length ≤ 2) ∧
    ((optimal_page_replacement
          (["A", "B", "A"] : List String) 2).movements.length = 3 ∧
      ∀ m ∈ (optimal_page_replacement (["A", "B", "A"] : List String)
          2).movements, m.Nodup ∧ m.length ≤ 2) :=
  snapshots_length_and_frame_invariants ["A", "B", "A"] 2 (by decide)

/-! ### C4: the fault count counts exactly the misses -/

/-- C4: for every trace and capacity `≥ 1`, under each policy a step is a
fault exactly when the referenced page is absent from the frame set
immediately before that step, and the returned fault count equals the
number of such steps (the list `[] :: movements`, zipped with the trace,
pairs each reference with the frame set in force just before it). -/
theorem fault_count_counts_misses {α : Type} [DecidableEq α]
    (pages : List α) (frames : Nat) (h1 : 1 ≤ frames) :
    ((fifo_page_replacement pages frames).page_faults =
      (pages.zip ([] :: (fifo_page_replacement pages frames).movements)).countP
        (fun pr => decide (pr.1 ∉ pr.2))) ∧
    ((lru_page_replacement pages frames).page_faults =
      (pages.zip ([] :: (lru_page_replacement pages frames).movements)).countP
        (fun pr => decide (pr.1 ∉ pr.2))) ∧
    ((optimal_page_replacement pages frames).page_faults =
      (pages.zip
          ([] :: (optimal_page_replacement pages frames).movements)).countP
        (fun pr => decide (pr.1 ∉ pr.2))) :=
  ⟨goRun_faults_eq_countP _ id pages 0 [],
    goRun_faults_eq_countP _ LruSt.mem pages 0 ⟨[], fun _ => 0⟩,
    goRun_faults_eq_countP _ id pages 0 []⟩

/-- C4 witness: the miss-count characterisation on a concrete trace. -/
theorem fault_count_counts_misses_witness :
    ((fifo_page_replacement (["A", "B", "A", "C"] : List String)
        2).page_faults =
      ((["A", "B", "A", "C"] : List String).zip
          ([] :: (fifo_page_replacement (["A", "B", "A", "C"] : List String)
            2).movements)).countP (fun pr => decide (pr.1 ∉ pr.2))) ∧
    ((lru_page_replacement (["A", "B", "A", "C"] : List String)
        2).page_faults =
      ((["A", "B", "A", "C"] : List String).zip
          ([] :: (lru_page_replacement (["A", "B", "A", "C"] : List String)
            2).movements)).countP (fun pr => decide (pr.1 ∉ pr.2))) ∧
    ((optimal_page_replacement (["A", "B", "A", "C"] : List String)
        2).page_faults =
      ((["A", "B", "A", "C"] : List String).zip
          ([] :: (optimal_page_replacement
            (["A", "B", "A", "C"] : List String) 2).movements)).countP
        (fun pr => decide (pr.1 ∉ pr.2))) :=
  fault_count_counts_misses ["A", "B", "A", "C"] 2 (by decide)

/-! ### Minimality of the Python min scan -/

theorem pyMinFold_le (key : α → Nat) :
    ∀ (l : List α) (b : α),
      key (pyMinFold key l b) ≤ key b ∧
        ∀ x ∈ l, key (pyMinFold key l b) ≤ key x := by
  intro l
  induction l with
  | nil => intro b; exact ⟨Nat.le_refl _, by simp⟩
  | cons x xs ih =>
    intro b
    simp only [pyMinFold]
    by_cases hx : key x < key b
    · rw [if_pos hx]
      obtain ⟨h1, h2⟩ := ih x
      refine ⟨Nat.le_trans h1 (Nat.le_of_lt hx), ?_⟩
      intro y hy
      rcases List.mem_cons.mp hy with rfl | hy
      · exact h1
      · exact h2 y hy
    · rw [if_neg hx]
      obtain ⟨h1, h2⟩ := ih b
      refine ⟨h1, ?_⟩
      intro y hy
      rcases List.mem_cons.mp hy with rfl | hy
      · exact Nat.le_trans h1 (Nat.le_of_not_lt hx)
      · exact h2 y hy

/-- The page returned by `min(l, key=key)` has a minimal key among `l`. -/
theorem pyMin_le {key : α → Nat} {l : List α} {q : α}
    (h : pyMin key l = some q) : ∀ x ∈ l, key q ≤ key x := by
  cases l with
  | nil => exact absurd h (by simp [pyMin])
  | cons x xs =>
    simp only [pyMin, Option.some_inj] at h
    subst h
    intro y hy
    rcases List.mem_cons.mp hy with rfl | hy
    · exact (pyMinFold_le key xs y).1
    · exact (pyMinFold_le key xs x).2 y hy

/-- The scan of `min` never replaces an element whose key is strictly below
every later key, so on a strictly ascending list the first element wins. -/
theorem pyMinFold_of_lt (key : α → Nat) :
    ∀ (l : List α) (b : α), (∀ x ∈ l, key b < key x) →
      pyMinFold key l b = b := by
  intro l
  induction l with
  | nil => intro b _; rfl
  | cons x xs ih =>
    intro b hb
    simp only [pyMinFold]
    rw [if_neg (Nat.not_lt.mpr (Nat.le_of_lt (hb x (by simp))))]
    exact ih b fun y hy => hb y (List.mem_cons_of_mem x hy)

/-! ### The LRU recency map records last-access positions -/

theorem stepsFrom_append (step : σ → Nat → α → σ) :
    ∀ (l₁ l₂ : List α) (i : Nat) (s : σ),
      stepsFrom step (l₁ ++ l₂) i s =
        stepsFrom step l₂ (i + l₁.length) (stepsFrom step l₁ i s) := by
  intro l₁
  induction l₁ with
  | nil => intro l₂ i s; simp [stepsFrom]
  | cons p l₁ ih =>
    intro l₂ i s
    have h1 : stepsFrom step ((p :: l₁) ++ l₂) i s
        = stepsFrom step (l₁ ++ l₂) (i + 1) (step s i p) := rfl
    have h2 : stepsFrom step (p :: l₁) i s
        = stepsFrom step l₁ (i + 1) (step s i p) := rfl
    rw [h1, ih, h2]
    have h3 : i + 1 + l₁.length = i + (p :: l₁).length := by
      simp only [List.length_cons]
      omega
    rw [h3]

/-- After processing a trace prefix, the `page_indices` entry of any page is
the accumulator-form last occurrence index of that page in the prefix. -/
theorem lruStepsFrom_idx (frames : Nat) :
    ∀ (l : List α) (i : Nat) (s : LruSt α) (x : α),
      (stepsFrom (lruStep frames) l i s).idx x = lastIdxFrom x l i (s.idx x) := by
  intro l
  induction l with
  | nil => intro i s x; rfl
  | cons p ps ih =>
    intro i s x
    simp only [stepsFrom, lastIdxFrom, ih]
    by_cases hx : x = p
    · subst hx
      simp [lruStep]
    · have hx2 : ¬ p = x := fun hc => hx hc.symm
      simp [lruStep, hx, hx2]

/-- The recency map of the state before position `i` is exactly the
last-occurrence index within `pages.take i`. -/
theorem lruStateAt_idx (pages : List α) (frames i : Nat) (x : α) :
    (lruStateAt pages frames i).idx x = lastIdx (pages.take i) x := by
  unfold lruStateAt lastIdx
  exact lruStepsFrom_idx frames (pages.take i) 0 ⟨[], fun _ => 0⟩ x

theorem lruStateAt_succ (pages : List α) (frames i : Nat) (p : α)
    (hp : pages.get? i = some p) :
    lruStateAt pages frames (i + 1) =
      lruStep frames (lruStateAt pages frames i) i p := by
  unfold lruStateAt
  have hp2 : pages[i]? = some p := by
    rw [← List.get?_eq_getElem?]
    exact hp
  rw [List.take_succ, hp2]
  rw [stepsFrom_append]
  have hi : i < pages.length := by
    rcases List.get?_eq_some.mp hp with ⟨h, _⟩
    exact h
  have hlen : (pages.take i).length = i := by
    rw [List.length_take]
    omega
  simp [stepsFrom, hlen]

/-! ### The LRU memory list stays ordered by recency -/

/-- One LRU step preserves the property that the memory list is strictly
ascending in recency and that every recorded recency is below the current
position. -/
theorem lruStep_recency_inv (frames : Nat) (s : LruSt α) (i : Nat) (p : α)
    (hpw : s.mem.Pairwise (fun a b => s.idx a < s.idx b))
    (hlt : ∀ q ∈ s.mem, s.idx q < i) :
    (lruStep frames s i p).mem.Pairwise
        (fun a b =>
          (lruStep frames s i p).idx a < (lruStep frames s i p).idx b) ∧
      ∀ q ∈ (lruStep frames s i p).mem, (lruStep frames s i p).idx q < i + 1 := by
  have hnd : s.mem.Nodup :=
    hpw.imp (fun {a b} hab => fun hc => absurd hab (by rw [hc]; omega))
  have key : ∀ base : List α, base.Sublist s.mem → p ∉ base →
      ((base ++ [p]).Pairwise
          (fun a b =>
            (if a = p then i else s.idx a) < (if b = p then i else s.idx b)) ∧
        ∀ q ∈ base ++ [p], (if q = p then i else s.idx q) < i + 1) := by
    intro base hsub hnp
    constructor
    · rw [List.pairwise_append]
      refine ⟨?_, List.pairwise_singleton _ _, ?_⟩
      · have hbase : base.Pairwise (fun a b => s.idx a < s.idx b) :=
          hpw.sublist hsub
        refine hbase.imp_of_mem ?_
        intro a b ha hb hab
        rw [if_neg (fun hc => hnp (by rw [← hc]; exact ha)),
          if_neg (fun hc => hnp (by rw [← hc]; exact hb))]
        exact hab
      · intro a ha b hb
        rcases List.mem_singleton.mp hb with rfl
        rw [if_neg (fun hc => hnp (by rw [← hc]; exact ha)), if_pos rfl]
        exact hlt a (hsub.mem ha)
    · intro q hq
      rcases List.mem_append.mp hq with hq | hq
      · rw [if_neg (fun hc => hnp (by rw [← hc]; exact hq))]
        exact Nat.lt_succ_of_lt (hlt q (hsub.mem hq))
      · rcases List.mem_singleton.mp hq with rfl
        rw [if_pos rfl]
        exact Nat.lt_succ_self i
  unfold lruStep
  simp only
  by_cases hp : p ∈ s.mem
  · rw [if_pos hp]
    exact key (s.mem.erase p) (s.mem.erase_sublist p)
      (fun hc => (hnd.mem_erase_iff.mp hc).1 rfl)
  · rw [if_neg hp]
    by_cases hroom : s.mem.length < frames
    · rw [if_pos hroom]
      exact key s.mem (List.Sublist.refl _) hp
    · rw [if_neg hroom]
      cases hq : pyMin s.idx s.mem with
      | none => exact key s.mem (List.Sublist.refl _) hp
      | some q =>
        exact key (s.mem.erase q) (s.mem.erase_sublist q)
          (fun hc => hp (hnd.mem_erase_iff.mp hc).2)

/-- The recency-ordering invariant holds at the state before every trace
position. -/
theorem lruStateAt_recency_inv (pages : List α) (frames i : Nat) :
    (lruStateAt pages frames i).mem.Pairwise
        (fun a b =>
          (lruStateAt pages frames i).idx a < (lruStateAt pages frames i).idx b) ∧
      ∀ q ∈ (lruStateAt pages frames i).mem,
        (lruStateAt pages frames i).idx q < i := by
  have main : ∀ (l : List α) (j : Nat) (s : LruSt α),
      (s.mem.Pairwise (fun a b => s.idx a < s.idx b) ∧
        ∀ q ∈ s.mem, s.idx q < j) →
      ((stepsFrom (lruStep frames) l j s).mem.Pairwise
          (fun a b =>
            (stepsFrom (lruStep frames) l j s).idx a <
              (stepsFrom (lruStep frames) l j s).idx b) ∧
        ∀ q ∈ (stepsFrom (lruStep frames) l j s).mem,
          (stepsFrom (lruStep frames) l j s).idx q < j + l.length) := by
    intro l
    induction l with
    | nil => intro j s hs; simpa [stepsFrom] using hs
    | cons p ps ih =>
      intro j s hs
      simp only [stepsFrom, List.length_cons]
      have hstep := lruStep_recency_inv frames s j p hs.1 hs.2
      have := ih (j + 1) (lruStep frames s j p) hstep
      refine ⟨this.1, ?_⟩
      intro q hq
      have := this.2 q hq
      omega
  have h0 : ((⟨[], fun _ => 0⟩ : LruSt α).mem.Pairwise
      (fun a b =>
        (⟨[], fun _ => 0⟩ : LruSt α).idx a <
          (⟨[], fun _ => 0⟩ : LruSt α).idx b) ∧
      ∀ q ∈ (⟨[], fun _ => 0⟩ : LruSt α).mem,
        (⟨[], fun _ => 0⟩ : LruSt α).idx q < 0) := by
    constructor
    · exact List.Pairwise.nil
    · intro q hq; simp at hq
  have := main (pages.take i) 0 ⟨[], fun _ => 0⟩ h0
  refine ⟨this.1, ?_⟩
  intro q hq
  have h2 := this.2 q hq
  have : (pages.take i).length ≤ i := by
    rw [List.length_take]; omega
  unfold lruStateAt at hq ⊢
  omega

/-! ### C10: the LRU list is ordered by last access -/

/-- C10: for every trace and capacity `≥ 1`, before each step the
`physical_memory` list of the LRU policy is strictly ascending in
last-access step (`page_indices`), so the least-recently-used page is the
front of the list; and on a miss with a full memory the `min`-by-recency
eviction removes exactly the front element, the next memory being
`tail ++ [page]`. -/
theorem lru_memory_ordered_by_recency {α : Type} [DecidableEq α]
    (pages : List α) (frames : Nat) (h1 : 1 ≤ frames) (i : Nat) :
    (lruStateAt pages frames i).mem.Pairwise
        (fun a b =>
          (lruStateAt pages frames i).idx a <
            (lruStateAt pages frames i).idx b) ∧
      ∀ p : α, pages.get? i = some p →
        p ∉ (lruStateAt pages frames i).mem →
        ¬ (lruStateAt pages frames i).mem.length < frames →
        pyMin (lruStateAt pages frames i).idx (lruStateAt pages frames i).mem
            = (lruStateAt pages frames i).mem.head? ∧
          (lruStateAt pages frames (i + 1)).mem =
            (lruStateAt pages frames i).mem.tail ++ [p] := by
  obtain ⟨hpw, _⟩ := lruStateAt_recency_inv pages frames i
  refine ⟨hpw, ?_⟩
  intro p hp hmem hfull
  have hne : (lruStateAt pages frames i).mem ≠ [] := by
    intro hc
    rw [hc] at hfull
    simp at hfull
    omega
  obtain ⟨m, ms, hms⟩ := List.exists_cons_of_ne_nil hne
  have hmin : pyMin (lruStateAt pages frames i).idx
      (lruStateAt pages frames i).mem = some m := by
    rw [hms]
    simp only [pyMin, Option.some_inj]
    apply pyMinFold_of_lt
    intro x hx
    have := hpw
    rw [hms] at this
    exact (List.pairwise_cons.mp this).1 x hx
  constructor
  · rw [hmin, hms]; rfl
  · rw [lruStateAt_succ pages frames i p hp]
    unfold lruStep
    simp only
    rw [if_neg hmem, if_neg hfull, hmin, hms]
    simp [List.erase_cons_head]

/-- C10 witness: on the trace `[A,B,C,A,D]` with capacity 3, before step 4
the memory is recency-ordered and the miss for `D` evicts the front. -/
theorem lru_memory_ordered_by_recency_witness :
    ((lruStateAt (["A", "B", "C", "A", "D"] : List String) 3 4).mem.Pairwise
        (fun a b =>
          (lruStateAt (["A", "B", "C", "A", "D"] : List String) 3 4).idx a <
            (lruStateAt (["A", "B", "C", "A", "D"] : List String) 3 4).idx b) ∧
      ∀ p : String, (["A", "B", "C", "A", "D"] : List String).get? 4 = some p →
        p ∉ (lruStateAt (["A", "B", "C", "A", "D"] : List String) 3 4).mem →
        ¬ (lruStateAt
            (["A", "B", "C", "A", "D"] : List String) 3 4).mem.length < 3 →
        pyMin (lruStateAt (["A", "B", "C", "A", "D"] : List String) 3 4).idx
            (lruStateAt (["A", "B", "C", "A", "D"] : List String) 3 4).mem
            = (lruStateAt
              (["A", "B", "C", "A", "D"] : List String) 3 4).mem.head? ∧
          (lruStateAt (["A", "B", "C", "A", "D"] : List String) 3 5).mem =
            (lruStateAt
              (["A", "B", "C", "A", "D"] : List String) 3 4).mem.tail ++ [p]) :=
  lru_memory_ordered_by_recency ["A", "B", "C", "A", "D"] 3 (by decide) 4

/-! ### C6: LRU evicts the page with the smallest last-access index -/

/-- C6: for every trace and capacity `≥ 1`, whenever the LRU policy misses
with a full frame set the evicted page is a resident page with the smallest
last-access step index (the recency map equals the last-occurrence index in
the processed prefix); in particular, on the trace `[A,B,C,A,D]` with
capacity 3, `D`'s miss evicts `B`, the final set is `{C,A,D}` and the fault
count is 4. -/
theorem lru_evicts_least_recently_used :
    (∀ (α : Type) [DecidableEq α] (pages : List α) (frames i : Nat) (p : α),
      1 ≤ frames → pages.get? i = some p →
      p ∉ (lruStateAt pages frames i).mem →
      ¬ (lruStateAt pages frames i).mem.length < frames →
      ∃ q, pyMin (lruStateAt pages frames i).idx
            (lruStateAt pages frames i).mem = some q ∧
        q ∈ (lruStateAt pages frames i).mem ∧
        (∀ r ∈ (lruStateAt pages frames i).mem,
          lastIdx (pages.take i) q ≤ lastIdx (pages.take i) r) ∧
        (lruStateAt pages frames (i + 1)).mem =
          (lruStateAt pages frames i).mem.erase q ++ [p]) ∧
    (lru_page_replacement (["A", "B", "C", "A", "D"] : List String)
        3).page_faults = 4 ∧
    (lru_page_replacement (["A", "B", "C", "A", "D"] : List String)
        3).physical_memory = ["C", "A", "D"] ∧
    ((lru_page_replacement (["A", "B", "C", "A", "D"] : List String)
        3).physical_memory.toFinset : Finset String) = {"C", "A", "D"} := by
  refine ⟨?_, by decide, by decide, by decide⟩
  intro α _ pages frames i p h1 hp hmem hfull
  have hne : (lruStateAt pages frames i).mem ≠ [] := by
    intro hc
    rw [hc] at hfull
    simp at hfull
    omega
  obtain ⟨m, ms, hms⟩ := List.exists_cons_of_ne_nil hne
  have hmin : ∃ q, pyMin (lruStateAt pages frames i).idx
      (lruStateAt pages frames i).mem = some q := by
    rw [hms]; exact ⟨_, rfl⟩
  obtain ⟨q, hq⟩ := hmin
  refine ⟨q, hq, pyMin_mem hq, ?_, ?_⟩
  · intro r hr
    have := pyMin_le hq r hr
    rw [lruStateAt_idx, lruStateAt_idx] at this
    exact this
  · rw [lruStateAt_succ pages frames i p hp]
    unfold lruStep
    simp only
    rw [if_neg hmem, if_neg hfull, hq]

/-- C6 witness: instantiated on the trace `[A,B,C,A,D]`, capacity 3, at the
miss for `D` (step 4). -/
theorem lru_evicts_least_recently_used_witness :
    ∃ q, pyMin (lruStateAt (["A", "B", "C", "A", "D"] : List String) 3 4).idx
          (lruStateAt (["A", "B", "C", "A", "D"] : List String) 3 4).mem
          = some q ∧
      q ∈ (lruStateAt (["A", "B", "C", "A", "D"] : List String) 3 4).mem ∧
      (∀ r ∈ (lruStateAt (["A", "B", "C", "A", "D"] : List String) 3 4).mem,
        lastIdx ((["A", "B", "C", "A", "D"] : List String).take 4) q ≤
          lastIdx ((["A", "B", "C", "A", "D"] : List String).take 4) r) ∧
      (lruStateAt (["A", "B", "C", "A", "D"] : List String) 3 5).mem =
        (lruStateAt
          (["A", "B", "C", "A", "D"] : List String) 3 4).mem.erase q ++ ["D"] :=
  lru_evicts_least_recently_used.1 String ["A", "B", "C", "A", "D"] 3 4 "D"
    (by decide) (by decide) (by decide) (by decide)

/-! ### Characterisation of the Optimal eviction scan -/

/-- The scan chooses the first resident page that does not occur in the
future trace, whatever has been accumulated so far. -/
theorem findVictim_first_absent (future : List α) :
    ∀ (l₁ : List α), (∀ x ∈ l₁, x ∈ future) → ∀ (q : α), q ∉ future →
      ∀ (l₂ : List α) (farthest : Int) (best : Option α),
        findVictim future (l₁ ++ q :: l₂) farthest best = some q := by
  intro l₁
  induction l₁ with
  | nil =>
    intro _ q hq l₂ farthest best
    simp only [List.nil_append, findVictim]
    rw [if_neg hq]
  | cons x l₁ ih =>
    intro hx q hq l₂ farthest best
    have hxf : x ∈ future := hx x (by simp)
    have hrest : ∀ y ∈ l₁, y ∈ future := fun y hy =>
      hx y (List.mem_cons_of_mem x hy)
    simp only [List.cons_append, findVictim]
    rw [if_pos hxf]
    by_cases hcmp : farthest < (future.indexOf x : Int)
    · rw [if_pos hcmp]; exact ih hrest q hq l₂ _ _
    · rw [if_neg hcmp]; exact ih hrest q hq l₂ _ _

/-- When every resident page occurs in the future trace, the scan seeded
with `b` returns a page whose next-occurrence index is maximal (among `b`
and the scanned pages). -/
theorem findVictim_max (future : List α) :
    ∀ (mem : List α) (b : α), (∀ x ∈ mem, x ∈ future) →
      ∃ q, findVictim future mem (future.indexOf b : Int) (some b) = some q ∧
        (q = b ∨ q ∈ mem) ∧
        future.indexOf b ≤ future.indexOf q ∧
        ∀ r ∈ mem, future.indexOf r ≤ future.indexOf q := by
  intro mem
  induction mem with
  | nil =>
    intro b _
    exact ⟨b, rfl, Or.inl rfl, Nat.le_refl _, by simp⟩
  | cons f fs ih =>
    intro b hmem
    have hf : f ∈ future := hmem f (by simp)
    have hrest : ∀ x ∈ fs, x ∈ future := fun x hx =>
      hmem x (List.mem_cons_of_mem f hx)
    simp only [findVictim]
    rw [if_pos hf]
    by_cases hcmp : (future.indexOf b : Int) < (future.indexOf f : Int)
    · rw [if_pos hcmp]
      obtain ⟨q, heq, hqm, hbq, hall⟩ := ih f hrest
      have hbf : future.indexOf b ≤ future.indexOf f :=
        Nat.le_of_lt (by exact_mod_cast hcmp)
      refine ⟨q, heq, ?_, Nat.le_trans hbf hbq, ?_⟩
      · rcases hqm with rfl | hqm
        · exact Or.inr (by simp)
        · exact Or.inr (List.mem_cons_of_mem f hqm)
      · intro r hr
        rcases List.mem_cons.mp hr with rfl | hr
        · exact hbq
        · exact hall r hr
    · rw [if_neg hcmp]
      have hfb : future.indexOf f ≤ future.indexOf b := by
        have := Int.not_lt.mp hcmp
        exact_mod_cast this
      obtain ⟨q, heq, hqm, hbq, hall⟩ := ih b hrest
      refine ⟨q, heq, ?_, hbq, ?_⟩
      · rcases hqm with rfl | hqm
        · exact Or.inl rfl
        · exact Or.inr (List.mem_cons_of_mem f hqm)
      · intro r hr
        rcases List.mem_cons.mp hr with rfl | hr
        · exact Nat.le_trans hfb hbq
        · exact hall r hr

/-- A list containing a page absent from `future` splits at the first such
page. -/
theorem exists_first_absent (future : List α) :
    ∀ (mem : List α) (f : α), f ∈ mem → f ∉ future →
      ∃ l₁ q l₂, mem = l₁ ++ q :: l₂ ∧ q ∉ future ∧
        ∀ x ∈ l₁, x ∈ future := by
  intro mem
  induction mem with
  | nil => intro f hf _; simp at hf
  | cons m ms ih =>
    intro f hf hfa
    by_cases hm : m ∈ future
    · have hfm : f ∈ ms := by
        rcases List.mem_cons.mp hf with rfl | h
        · exact absurd hm hfa
        · exact h
      obtain ⟨l₁, q, l₂, heq, hq, hl⟩ := ih f hfm hfa
      refine ⟨m :: l₁, q, l₂, by rw [heq]; rfl, hq, ?_⟩
      intro x hx
      rcases List.mem_cons.mp hx with rfl | hx
      · exact hm
      · exact hl x hx
    · exact ⟨[], m, ms, rfl, hm, by simp⟩

theorem optMemAt_succ (pages : List α) (frames i : Nat) (p : α)
    (hp : pages.get? i = some p) :
    optMemAt pages frames (i + 1) =
      optStep pages frames (optMemAt pages frames i) i p := by
  unfold optMemAt
  have hp2 : pages[i]? = some p := by
    rw [← List.get?_eq_getElem?]
    exact hp
  rw [List.take_succ, hp2, stepsFrom_append]
  have hi : i < pages.length := by
    rcases List.get?_eq_some.mp hp with ⟨h, _⟩
    exact h
  have hlen : (pages.take i).length = i := by
    rw [List.length_take]
    omega
  simp [stepsFrom, hlen]

/-! ### C7: what the Optimal policy evicts -/

/-- C7: for every trace and capacity `≥ 1`, whenever the Optimal policy
misses with a full frame set, it evicts a resident page with no occurrence
strictly after the current position if one exists (the first such page in
the memory-list scan order), and otherwise evicts the resident page whose
next occurrence after the current position (its index in
`pages.drop (i+1)`) is farthest away. -/
theorem optimal_eviction_policy :
    ∀ (α : Type) [DecidableEq α] (pages : List α) (frames i : Nat) (p : α),
      1 ≤ frames → pages.get? i = some p →
      p ∉ optMemAt pages frames i →
      ¬ (optMemAt pages frames i).length < frames →
      ∃ q, q ∈ optMemAt pages frames i ∧
        optMemAt pages frames (i + 1) =
          (optMemAt pages frames i).erase q ++ [p] ∧
        ((∃ l₁ l₂, optMemAt pages frames i = l₁ ++ q :: l₂ ∧
            q ∉ pages.drop (i + 1) ∧
            ∀ x ∈ l₁, x ∈ pages.drop (i + 1)) ∨
          ((∀ x ∈ optMemAt pages frames i, x ∈ pages.drop (i + 1)) ∧
            ∀ r ∈ optMemAt pages frames i,
              (pages.drop (i + 1)).indexOf r ≤
                (pages.drop (i + 1)).indexOf q)) := by
  intro α _ pages frames i p h1 hp hmem hfull
  set future := pages.drop (i + 1) with hfut
  by_cases habs : ∃ f ∈ optMemAt pages frames i, f ∉ future
  · obtain ⟨f, hf, hfa⟩ := habs
    obtain ⟨l₁, q, l₂, heq, hq, hl⟩ :=
      exists_first_absent future (optMemAt pages frames i) f hf hfa
    have hvic : findVictim future (optMemAt pages frames i) (-1) none
        = some q := by
      rw [heq]
      exact findVictim_first_absent future l₁ hl q hq l₂ _ _
    refine ⟨q, by rw [heq]; exact List.mem_append_right _ (by simp), ?_, ?_⟩
    · rw [optMemAt_succ pages frames i p hp]
      unfold optStep
      rw [if_neg hmem, if_neg hfull]
      simp only [← hfut, hvic]
    · exact Or.inl ⟨l₁, l₂, heq, hq, hl⟩
  · push_neg at habs
    have hne : optMemAt pages frames i ≠ [] := by
      intro hc
      rw [hc] at hfull
      simp at hfull
      omega
    obtain ⟨f, fs, hffs⟩ := List.exists_cons_of_ne_nil hne
    have hmemfut : ∀ x ∈ optMemAt pages frames i, x ∈ future := habs
    have hf : f ∈ future := hmemfut f (by rw [hffs]; simp)
    have hrest : ∀ x ∈ fs, x ∈ future := fun x hx =>
      hmemfut x (by rw [hffs]; exact List.mem_cons_of_mem f hx)
    obtain ⟨q, heq, hqm, hfq, hall⟩ := findVictim_max future fs f hrest
    have hvic : findVictim future (optMemAt pages frames i) (-1) none
        = some q := by
      rw [hffs]
      simp only [findVictim]
      rw [if_pos hf]
      have hcmp : (-1 : Int) < (future.indexOf f : Int) := by
        have : (0 : Int) ≤ (future.indexOf f : Int) := Int.natCast_nonneg _
        omega
      rw [if_pos hcmp]
      exact heq
    have hqmem : q ∈ optMemAt pages frames i := by
      rw [hffs]
      rcases hqm with rfl | hqm
      · simp
      · exact List.mem_cons_of_mem f hqm
    refine ⟨q, hqmem, ?_, ?_⟩
    · rw [optMemAt_succ pages frames i p hp]
      unfold optStep
      rw [if_neg hmem, if_neg hfull]
      simp only [← hfut, hvic]
    · refine Or.inr ⟨hmemfut, ?_⟩
      intro r hr
      rw [hffs] at hr
      rcases List.mem_cons.mp hr with rfl | hr
      · exact hfq
      · exact hall r hr

/-- C7 witness: instantiated on the trace `[A,B,C,A,B,D,A]`, capacity 3, at
the miss for `D` (step 5). -/
theorem optimal_eviction_policy_witness :
    ∃ q, q ∈ optMemAt (["A", "B", "C", "A", "B", "D", "A"] : List String) 3 5 ∧
      optMemAt (["A", "B", "C", "A", "B", "D", "A"] : List String) 3 6 =
        (optMemAt (["A", "B", "C", "A", "B", "D", "A"] : List String)
          3 5).erase q ++ ["D"] ∧
      ((∃ l₁ l₂,
          optMemAt (["A", "B", "C", "A", "B", "D", "A"] : List String) 3 5 =
            l₁ ++ q :: l₂ ∧
          q ∉ (["A", "B", "C", "A", "B", "D", "A"] : List String).drop 6 ∧
          ∀ x ∈ l₁,
            x ∈ (["A", "B", "C", "A", "B", "D", "A"] : List String).drop 6) ∨
        ((∀ x ∈ optMemAt
            (["A", "B", "C", "A", "B", "D", "A"] : List String) 3 5,
            x ∈ (["A", "B", "C", "A", "B", "D", "A"] : List String).drop 6) ∧
          ∀ r ∈ optMemAt
            (["A", "B", "C", "A", "B", "D", "A"] : List String) 3 5,
            ((["A", "B", "C", "A", "B", "D", "A"] :
              List String).drop 6).indexOf r ≤
              ((["A", "B", "C", "A", "B", "D", "A"] :
                List String).drop 6).indexOf q)) :=
  optimal_eviction_policy String ["A", "B", "C", "A", "B", "D", "A"] 3 5 "D"
    (by decide) (by decide) (by decide) (by decide)

/-! ### C1: the FIFO reference-trace example -/

/-- C1 counterexample: on the trace `[A,B,C,D,A,B,E]` with capacity 3,
`fifo_page_replacement` does not report 6 faults (it reports 7: every one of
the seven references misses). -/
theorem fifo_trace_fault_count_not_six :
    ¬ (fifo_page_replacement ["A", "B", "C", "D", "A", "B", "E"] 3).page_faults
      = 6 := by
  decide

/-- C1 amended: FIFO on the trace `[A,B,C,D,A,B,E]` with capacity 3 yields a
fault count of 7 (every reference misses), the per-step frame states
`[A]→[A,B]→[A,B,C]→[B,C,D]→[C,D,A]→[D,A,B]→[A,B,E]`, and the final frame set
`{A,B,E}`. -/
theorem fifo_reference_trace_run :
    (fifo_page_replacement ["A", "B", "C", "D", "A", "B", "E"] 3).page_faults
        = 7 ∧
    (fifo_page_replacement ["A", "B", "C", "D", "A", "B", "E"] 3).movements =
      [["A"], ["A", "B"], ["A", "B", "C"], ["B", "C", "D"], ["C", "D", "A"],
        ["D", "A", "B"], ["A", "B", "E"]] ∧
    (fifo_page_replacement
        ["A", "B", "C", "D", "A", "B", "E"] 3).physical_memory
      = ["A", "B", "E"] ∧
    ((fifo_page_replacement
        ["A", "B", "C", "D", "A", "B", "E"] 3).physical_memory.toFinset
      : Finset String) = {"A", "B", "E"} := by
  refine ⟨by decide, by decide, by decide, by decide⟩

/-! ### C2: the Optimal reference-trace example -/

/-- C2 counterexample: on the trace `[A,B,C,A,B,D,A]` with capacity 3, the
frame set of `optimal_page_replacement` after the miss for `D` (step 5) is
not `{A,B,D}` — the eviction scan breaks at the first resident page with no
future occurrence, which is `B` (the only future page is `A`), so the set is
`{A,C,D}`. -/
theorem optimal_trace_frame_set_after_D_not_ABD :
    ¬ (((optimal_page_replacement
          ["A", "B", "C", "A", "B", "D", "A"] 3).movements.getD 5 []).toFinset
        : Finset String) = {"A", "B", "D"} := by
  decide

/-- C2 amended: Optimal on the trace `[A,B,C,A,B,D,A]` with capacity 3
admits `A,B,C` (3 faults), hits on `A` and `B`, then on the miss for `D`
evicts `B` (the first resident page in scan order with no future
occurrence), giving the frame set `{A,C,D}` after `D`, a final hit on `A`,
and a total fault count of 4. -/
theorem optimal_reference_trace_run :
    (optimal_page_replacement
        ["A", "B", "C", "A", "B", "D", "A"] 3).page_faults = 4 ∧
    (optimal_page_replacement
        ["A", "B", "C", "A", "B", "D", "A"] 3).movements =
      [["A"], ["A", "B"], ["A", "B", "C"], ["A", "B", "C"], ["A", "B", "C"],
        ["A", "C", "D"], ["A", "C", "D"]] ∧
    (((optimal_page_replacement
        ["A", "B", "C", "A", "B", "D", "A"] 3).movements.getD 5 []).toFinset
      : Finset String) = {"A", "C", "D"} ∧
    (optimal_page_replacement
        ["A", "B", "C", "A", "B", "D", "A"] 3).physical_memory
      = ["A", "C", "D"] := by
  refine ⟨by decide, by decide, by decide, by decide⟩

/-! ### C3: nonpositive capacity is rejected -/

/-- C3: for every trace and every policy, invoking the simulation with
capacity `<= 0` (a frames entry that is not a digit string, or whose value
is 0 — `int(frames) <= 0` in `validate_input`) fails with the program's
invalid-argument rejection. -/
theorem simulate_rejects_nonpositive_capacity {α : Type} [DecidableEq α]
    (pages : List α) (framesStr : String) (alg : Policy)
    (h : (parseFrames framesStr).getD 0 = 0) :
    simulate pages framesStr alg = Except.error "Input Error" := by
  have hv : validate_input pages framesStr = false := by
    unfold validate_input
    cases hp : pages.isEmpty with
    | true => simp
    | false =>
      cases hpf : parseFrames framesStr with
      | none => simp [hpf]
      | some n =>
        rw [hpf] at h
        simp only [Option.getD_some] at h
        simp [hpf, h]
  unfold simulate
  rw [hv]
  simp

/-- C3 witness: with trace `["A"]`, frames entry `"0"` and the FIFO policy,
the simulation is rejected. -/
theorem simulate_rejects_nonpositive_capacity_witness :
    simulate (["A"] : List String) "0" Policy.FIFO
      = Except.error "Input Error" :=
  simulate_rejects_nonpositive_capacity ["A"] "0" Policy.FIFO (by decide)

/-! ### C9: determinism of the simulation -/

/-- C9: for every trace, capacity `≥ 1` and policy, two simulation runs with
identical inputs produce identical fault counts, identical snapshot
sequences, and identical final frame sets (the algorithms are pure functions
of their inputs; the wall-clock time, which may differ, is not part of the
result). -/
theorem runAlgorithm_deterministic {α : Type} [DecidableEq α]
    (pages : List α) (frames : Nat) (alg : Policy) (_h : 1 ≤ frames) :
    (runAlgorithm alg pages frames).page_faults
        = (runAlgorithm alg pages frames).page_faults ∧
    (runAlgorithm alg pages frames).movements
        = (runAlgorithm alg pages frames).movements ∧
    (runAlgorithm alg pages frames).physical_memory
        = (runAlgorithm alg pages frames).physical_memory :=
  ⟨rfl, rfl, rfl⟩

/-- C9 witness: determinism instantiated on a concrete run. -/
theorem runAlgorithm_deterministic_witness :
    (runAlgorithm Policy.LRU (["A", "B"] : List String) 1).page_faults
        = (runAlgorithm Policy.LRU (["A", "B"] : List String) 1).page_faults ∧
    (runAlgorithm Policy.LRU (["A", "B"] : List String) 1).movements
        = (runAlgorithm Policy.LRU (["A", "B"] : List String) 1).movements ∧
    (runAlgorithm Policy.LRU (["A", "B"] : List String) 1).physical_memory
        = (runAlgorithm Policy.LRU
            (["A", "B"] : List String) 1).physical_memory :=
  runAlgorithm_deterministic ["A", "B"] 1 Policy.LRU (by decide)

/-! ### The offline demand-paging optimum: basic equations -/

theorem cost_nil (k : Nat) (C : Finset α) : cost k [] C = 0 := rfl

theorem cost_cons_hit (k : Nat) (p : α) (ps : List α) (C : Finset α)
    (hp : p ∈ C) : cost k (p :: ps) C = cost k ps C := by
  simp [cost, hp]

theorem cost_cons_room (k : Nat) (p : α) (ps : List α) (C : Finset α)
    (hp : p ∉ C) (hroom : C.card < k) :
    cost k (p :: ps) C = 1 + cost k ps (insert p C) := by
  simp [cost, hp, hroom]

theorem cost_cons_full (k : Nat) (p : α) (ps : List α) (C : Finset α)
    (hp : p ∉ C) (hfull : ¬ C.card < k) (h0 : 0 < C.card) :
    cost k (p :: ps) C =
      1 + C.inf' (Finset.card_pos.mp h0)
        (fun q => cost k ps (insert p (C.erase q))) := by
  simp [cost, hp, hfull, h0]

/-- Changing the starting resident set costs at most the number of pages the
other set has and this one lacks: `cost ps C ≤ cost ps D + |D \ C|`. -/
theorem cost_le_cost_add_sdiff (k : Nat) :
    ∀ (ps : List α) (C D : Finset α), C.card ≤ k → D.card ≤ k →
      cost k ps C ≤ cost k ps D + (D \ C).card := by
  intro ps
  induction ps with
  | nil => intro C D _ _; simp [cost_nil]
  | cons p ps ih =>
    intro C D hC hD
    by_cases hpC : p ∈ C <;> by_cases hpD : p ∈ D
    · rw [cost_cons_hit k p ps C hpC, cost_cons_hit k p ps D hpD]
      exact ih C D hC hD
    · -- p resident in C, missing from D
      rw [cost_cons_hit k p ps C hpC]
      by_cases hroom : D.card < k
      · rw [cost_cons_room k p ps D hpD hroom]
        have h1 := ih C (insert p D) hC
          (le_trans (Finset.card_insert_le p D) hroom)
        rw [Finset.insert_sdiff_of_mem D hpC] at h1
        omega
      · have hk1 : 0 < C.card := Finset.card_pos.mpr ⟨p, hpC⟩
        have h0 : 0 < D.card := by omega
        rw [cost_cons_full k p ps D hpD hroom h0]
        obtain ⟨q, hq, hinf⟩ := Finset.exists_mem_eq_inf'
          (Finset.card_pos.mp h0)
          (fun q => cost k ps (insert p (D.erase q)))
        rw [hinf]
        have hcard : (insert p (D.erase q)).card ≤ k := by
          have := Finset.card_insert_le p (D.erase q)
          have := Finset.card_erase_of_mem hq
          omega
        have h1 := ih C (insert p (D.erase q)) hC hcard
        rw [Finset.insert_sdiff_of_mem _ hpC] at h1
        have h2 : (D.erase q) \ C ⊆ D \ C :=
          Finset.sdiff_subset_sdiff
            (fun x hx => Finset.mem_of_mem_erase hx)
            (Finset.Subset.refl C)
        have h3 := Finset.card_le_card h2
        omega
    · -- p missing from C, resident in D
      have hpDC : p ∈ D \ C := Finset.mem_sdiff.mpr ⟨hpD, hpC⟩
      have hc1 : 0 < (D \ C).card := Finset.card_pos.mpr ⟨p, hpDC⟩
      rw [cost_cons_hit k p ps D hpD]
      by_cases hroomC : C.card < k
      · rw [cost_cons_room k p ps C hpC hroomC]
        have h1 := ih (insert p C) D
          (le_trans (Finset.card_insert_le p C) hroomC) hD
        rw [Finset.sdiff_insert] at h1
        have h2 := Finset.card_erase_of_mem hpDC
        omega
      · have hk1 : 0 < k := lt_of_lt_of_le (Finset.card_pos.mpr ⟨p, hpD⟩) hD
        have h0C : 0 < C.card := by omega
        rw [cost_cons_full k p ps C hpC hroomC h0C]
        have hCD : ¬ C ⊆ D := by
          intro hsub
          have heq := Finset.eq_of_subset_of_card_le hsub (by omega)
          rw [heq] at hpC
          exact hpC hpD
        obtain ⟨q, hqC, hqD⟩ := Finset.not_subset.mp hCD
        have hle := Finset.inf'_le
          (fun r => cost k ps (insert p (C.erase r))) hqC
        have hcard : (insert p (C.erase q)).card ≤ k := by
          have := Finset.card_insert_le p (C.erase q)
          have := Finset.card_erase_of_mem hqC
          omega
        have h1 := ih (insert p (C.erase q)) D hcard hD
        have hsd : D \ insert p (C.erase q) = (D \ C).erase p := by
          rw [Finset.sdiff_insert]
          congr 1
          ext x
          simp only [Finset.mem_sdiff]
          constructor
          · rintro ⟨hxD, hx⟩
            refine ⟨hxD, fun hxC => ?_⟩
            by_cases hxq : x = q
            · exact hqD (by rw [← hxq]; exact hxD)
            · exact hx (Finset.mem_erase.mpr ⟨hxq, hxC⟩)
          · rintro ⟨hxD, hxC⟩
            exact ⟨hxD, fun hx => hxC (Finset.mem_of_mem_erase hx)⟩
        rw [hsd] at h1
        have h2 := Finset.card_erase_of_mem hpDC
        omega
    · -- p missing from both
      by_cases hroomD : D.card < k
      · rw [cost_cons_room k p ps D hpD hroomD]
        by_cases hroomC : C.card < k
        · rw [cost_cons_room k p ps C hpC hroomC]
          have h1 := ih (insert p C) (insert p D)
            (le_trans (Finset.card_insert_le p C) hroomC)
            (le_trans (Finset.card_insert_le p D) hroomD)
          have hsd : insert p D \ insert p C = D \ C := by
            rw [Finset.insert_sdiff_of_mem D (Finset.mem_insert_self p C),
              Finset.sdiff_insert]
            apply Finset.erase_eq_of_not_mem
            simp [hpD]
          rw [hsd] at h1
          omega
        · have h0C : 0 < C.card := by omega
          rw [cost_cons_full k p ps C hpC hroomC h0C]
          have hCD : ¬ C ⊆ insert p D := by
            intro hsub
            have hcard2 : (insert p D).card ≤ C.card := by
              have := Finset.card_insert_le p D
              omega
            have heq := Finset.eq_of_subset_of_card_le hsub hcard2
            rw [heq] at hpC
            exact hpC (Finset.mem_insert_self p D)
          obtain ⟨q, hqC, hqD'⟩ := Finset.not_subset.mp hCD
          have hqD : q ∉ D := fun hc => hqD' (Finset.mem_insert_of_mem hc)
          have hle := Finset.inf'_le
            (fun r => cost k ps (insert p (C.erase r))) hqC
          have hcard : (insert p (C.erase q)).card ≤ k := by
            have := Finset.card_insert_le p (C.erase q)
            have := Finset.card_erase_of_mem hqC
            omega
          have h1 := ih (insert p (C.erase q)) (insert p D) hcard
            (le_trans (Finset.card_insert_le p D) hroomD)
          have hsd : insert p D \ insert p (C.erase q) = D \ C := by
            rw [Finset.insert_sdiff_of_mem D
              (Finset.mem_insert_self p (C.erase q)), Finset.sdiff_insert]
            ext x
            simp only [Finset.mem_erase, Finset.mem_sdiff]
            constructor
            · rintro ⟨hxp, hxD, hx⟩
              refine ⟨hxD, fun hxC => ?_⟩
              by_cases hxq : x = q
              · exact hqD (by rw [← hxq]; exact hxD)
              · exact hx ⟨hxq, hxC⟩
            · rintro ⟨hxD, hxC⟩
              exact ⟨fun hc => hpD (by rw [← hc]; exact hxD), hxD,
                fun hx => hxC hx.2⟩
          rw [hsd] at h1
          omega
      · -- D full
        by_cases hk : k = 0
        · subst hk
          have hC0 : C = ∅ := Finset.card_eq_zero.mp (by omega)
          have hD0 : D = ∅ := Finset.card_eq_zero.mp (by omega)
          rw [hC0, hD0]
          have hC1 : cost 0 (p :: ps) (∅ : Finset α) = 1 := by
            simp [cost]
          rw [hC1]
          omega
        · have h0D : 0 < D.card := by omega
          rw [cost_cons_full k p ps D hpD hroomD h0D]
          obtain ⟨q', hq', hinf⟩ := Finset.exists_mem_eq_inf'
            (Finset.card_pos.mp h0D)
            (fun q => cost k ps (insert p (D.erase q)))
          rw [hinf]
          have hcardD2 : (insert p (D.erase q')).card ≤ k := by
            have := Finset.card_insert_le p (D.erase q')
            have := Finset.card_erase_of_mem hq'
            omega
          by_cases hroomC : C.card < k
          · rw [cost_cons_room k p ps C hpC hroomC]
            have h1 := ih (insert p C) (insert p (D.erase q'))
              (le_trans (Finset.card_insert_le p C) hroomC) hcardD2
            have hsd : insert p (D.erase q') \ insert p C ⊆ D \ C := by
              rw [Finset.insert_sdiff_of_mem _ (Finset.mem_insert_self p C),
                Finset.sdiff_insert]
              intro x hx
              obtain ⟨hxp, hx2⟩ := Finset.mem_erase.mp hx
              obtain ⟨hxD', hxC'⟩ := Finset.mem_sdiff.mp hx2
              exact Finset.mem_sdiff.mpr ⟨Finset.mem_of_mem_erase hxD', hxC'⟩
            have h2 := Finset.card_le_card hsd
            omega
          · have h0C : 0 < C.card := by omega
            rw [cost_cons_full k p ps C hpC hroomC h0C]
            have hCD : ¬ C ⊆ insert p (D.erase q') := by
              intro hsub
              have heq := Finset.eq_of_subset_of_card_le hsub (by omega)
              rw [heq] at hpC
              exact hpC (Finset.mem_insert_self p (D.erase q'))
            obtain ⟨q, hqC, hqD2⟩ := Finset.not_subset.mp hCD
            have hle := Finset.inf'_le
              (fun r => cost k ps (insert p (C.erase r))) hqC
            have hcardC2 : (insert p (C.erase q)).card ≤ k := by
              have := Finset.card_insert_le p (C.erase q)
              have := Finset.card_erase_of_mem hqC
              omega
            have h1 := ih (insert p (C.erase q)) (insert p (D.erase q'))
              hcardC2 hcardD2
            have hsd : insert p (D.erase q') \ insert p (C.erase q) ⊆
                D \ C := by
              intro x hx
              obtain ⟨hxD2, hxn⟩ := Finset.mem_sdiff.mp hx
              have hxp : x ≠ p := fun hc =>
                hxn (by rw [hc]; exact Finset.mem_insert_self p (C.erase q))
              have hxDe : x ∈ D.erase q' := by
                rcases Finset.mem_insert.mp hxD2 with hc | h
                · exact absurd hc hxp
                · exact h
              refine Finset.mem_sdiff.mpr
                ⟨Finset.mem_of_mem_erase hxDe, fun hxC => ?_⟩
              by_cases hxq : x = q
              · exact hqD2 (by rw [← hxq]; exact hxD2)
              · exact hxn (Finset.mem_insert_of_mem
                  (Finset.mem_erase.mpr ⟨hxq, hxC⟩))
            have h2 := Finset.card_le_card hsd
            omega

/-! ### The exchange argument: keeping the sooner-used page is never worse -/

theorem nextUse_cons (r : α) (ps : List α) (x : α) :
    nextUse (r :: ps) x = if x = r then 0 else nextUse ps x + 1 := by
  unfold nextUse
  by_cases hx : x = r
  · subst hx
    rw [if_pos (List.mem_cons_self x ps), if_pos rfl, List.indexOf_cons_self]
    rfl
  · rw [if_neg hx]
    have hmc : x ∈ r :: ps ↔ x ∈ ps := by simp [List.mem_cons, hx]
    by_cases hmem : x ∈ ps
    · rw [if_pos (hmc.mpr hmem), if_pos hmem,
        List.indexOf_cons_ne ps (fun h => hx h.symm)]
      rw [Nat.succ_eq_add_one]
      push_cast
      rfl
    · rw [if_neg (fun h => hmem (hmc.mp h)), if_neg hmem]
      exact (top_add 1).symm

theorem nextUse_tail_le {r u v : α} {ps : List α} (hru : r ≠ u) (hrv : r ≠ v)
    (h : nextUse (r :: ps) u ≤ nextUse (r :: ps) v) :
    nextUse ps u ≤ nextUse ps v := by
  rw [nextUse_cons, nextUse_cons, if_neg (fun hh => hru hh.symm),
    if_neg (fun hh => hrv hh.symm)] at h
  have h2 : (1 : ℕ∞) ≠ ⊤ := by decide
  exact (WithTop.add_le_add_iff_right h2).mp h

/-- Exchange lemma: if the caches `insert u K` and `insert v K` differ only
in `u` versus `v`, and `u` is referenced no later than `v` in the remaining
trace, then serving the trace from the cache holding `u` costs no more. -/
theorem cost_exchange (k : Nat) :
    ∀ (ps : List α) (K : Finset α) (u v : α), u ∉ K → v ∉ K → u ≠ v →
      (insert u K).card ≤ k → nextUse ps u ≤ nextUse ps v →
      cost k ps (insert u K) ≤ cost k ps (insert v K) := by
  intro ps
  induction ps with
  | nil => intro K u v _ _ _ _ _; simp [cost_nil]
  | cons r ps ih =>
    intro K u v hu hv huv hcard hnext
    have hcardv : (insert v K).card ≤ k := by
      rw [Finset.card_insert_of_not_mem hv]
      rw [Finset.card_insert_of_not_mem hu] at hcard
      omega
    by_cases hru : r = u
    · subst hru
      have hrX : r ∈ insert r K := Finset.mem_insert_self r K
      have hrY : r ∉ insert v K := by simp [Finset.mem_insert, huv, hu]
      rw [cost_cons_hit k r ps _ hrX]
      by_cases hroomY : (insert v K).card < k
      · rw [cost_cons_room k r ps _ hrY hroomY]
        have hkey := cost_le_cost_add_sdiff k ps (insert r K)
          (insert r (insert v K)) hcard
          (by
            have := Finset.card_insert_le r (insert v K)
            omega)
        have hsd : (insert r (insert v K)) \ (insert r K) ⊆ {v} := by
          intro x hx
          obtain ⟨h1, h2⟩ := Finset.mem_sdiff.mp hx
          rcases Finset.mem_insert.mp h1 with rfl | h1
          · exact absurd (Finset.mem_insert_self x K) h2
          · rcases Finset.mem_insert.mp h1 with rfl | h1
            · exact Finset.mem_singleton_self x
            · exact absurd (Finset.mem_insert_of_mem h1) h2
        have hc1 : ((insert r (insert v K)) \ (insert r K)).card ≤ 1 := by
          have := Finset.card_le_card hsd
          simpa using this
        omega
      · have h0Y : 0 < (insert v K).card :=
          Finset.card_pos.mpr ⟨v, Finset.mem_insert_self v K⟩
        rw [cost_cons_full k r ps _ hrY hroomY h0Y]
        obtain ⟨q, hq, hinf⟩ := Finset.exists_mem_eq_inf'
          (Finset.card_pos.mp h0Y)
          (fun q => cost k ps (insert r ((insert v K).erase q)))
        rw [hinf]
        by_cases hqv : q = v
        · subst hqv
          rw [Finset.erase_insert hv]
          omega
        · have hqK : q ∈ K := by
            rcases Finset.mem_insert.mp hq with hc | h
            · exact absurd hc hqv
            · exact h
          have hkey := cost_le_cost_add_sdiff k ps (insert r K)
            (insert r ((insert v K).erase q)) hcard
            (by
              have := Finset.card_insert_le r ((insert v K).erase q)
              have := Finset.card_erase_of_mem hq
              omega)
          have hsd : insert r ((insert v K).erase q) \ insert r K ⊆ {v} := by
            intro x hx
            obtain ⟨h1, h2⟩ := Finset.mem_sdiff.mp hx
            rcases Finset.mem_insert.mp h1 with rfl | h1
            · exact absurd (Finset.mem_insert_self x K) h2
            · have h1b := Finset.mem_of_mem_erase h1
              rcases Finset.mem_insert.mp h1b with rfl | h1c
              · exact Finset.mem_singleton_self x
              · exact absurd (Finset.mem_insert_of_mem h1c) h2
          have hc1 : (insert r ((insert v K).erase q) \ insert r K).card
              ≤ 1 := by
            have := Finset.card_le_card hsd
            simpa using this
          omega
    · by_cases hrv : r = v
      · subst hrv
        exfalso
        have h1 : nextUse (r :: ps) r = 0 := by rw [nextUse_cons, if_pos rfl]
        have h2 : nextUse (r :: ps) u = nextUse ps u + 1 := by
          rw [nextUse_cons, if_neg (fun hh => hru hh.symm)]
        rw [h1, h2] at hnext
        have h3 : (1 : ℕ∞) ≤ nextUse ps u + 1 := le_add_self
        exact absurd (le_trans h3 hnext) (by decide)
      · have hnext2 : nextUse ps u ≤ nextUse ps v :=
          nextUse_tail_le hru hrv hnext
        by_cases hrK : r ∈ K
        · rw [cost_cons_hit k r ps _ (Finset.mem_insert_of_mem hrK),
            cost_cons_hit k r ps _ (Finset.mem_insert_of_mem hrK)]
          exact ih K u v hu hv huv hcard hnext2
        · have hrX : r ∉ insert u K := by
            simp [Finset.mem_insert, hru, hrK]
          have hrY : r ∉ insert v K := by
            simp [Finset.mem_insert, hrv, hrK]
          by_cases hroomY : (insert v K).card < k
          · have hroomX : (insert u K).card < k := by
              rw [Finset.card_insert_of_not_mem hu]
              rw [Finset.card_insert_of_not_mem hv] at hroomY
              omega
            rw [cost_cons_room k r ps _ hrX hroomX,
              cost_cons_room k r ps _ hrY hroomY]
            rw [Finset.Insert.comm r u K, Finset.Insert.comm r v K]
            have ihh := ih (insert r K) u v
              (by
                simp only [Finset.mem_insert]
                push_neg
                exact ⟨fun h => hru h.symm, hu⟩)
              (by
                simp only [Finset.mem_insert]
                push_neg
                exact ⟨fun h => hrv h.symm, hv⟩)
              huv
              (by
                rw [← Finset.Insert.comm r u K]
                have := Finset.card_insert_le r (insert u K)
                omega)
              hnext2
            omega
          · have hroomX : ¬ (insert u K).card < k := by
              rw [Finset.card_insert_of_not_mem hu]
              rw [Finset.card_insert_of_not_mem hv] at hroomY
              omega
            have h0X : 0 < (insert u K).card :=
              Finset.card_pos.mpr ⟨u, Finset.mem_insert_self u K⟩
            have h0Y : 0 < (insert v K).card :=
              Finset.card_pos.mpr ⟨v, Finset.mem_insert_self v K⟩
            rw [cost_cons_full k r ps _ hrX hroomX h0X,
              cost_cons_full k r ps _ hrY hroomY h0Y]
            obtain ⟨q2, hq2, hinf⟩ := Finset.exists_mem_eq_inf'
              (Finset.card_pos.mp h0Y)
              (fun q => cost k ps (insert r ((insert v K).erase q)))
            rw [hinf]
            by_cases hq2v : q2 = v
            · subst hq2v
              have hle := Finset.inf'_le
                (fun q => cost k ps (insert r ((insert u K).erase q)))
                (Finset.mem_insert_self u K)
              simp only [Finset.erase_insert hu] at hle
              simp only [Finset.erase_insert hv]
              omega
            · have hq2K : q2 ∈ K := by
                rcases Finset.mem_insert.mp hq2 with hc | h
                · exact absurd hc hq2v
                · exact h
              have hq2u : q2 ≠ u := fun hc => hu (by rw [← hc]; exact hq2K)
              have hq2r : q2 ≠ r := fun hc => hrK (by rw [← hc]; exact hq2K)
              have hq2X : q2 ∈ insert u K := Finset.mem_insert_of_mem hq2K
              have hle := Finset.inf'_le
                (fun q => cost k ps (insert r ((insert u K).erase q))) hq2X
              have eX : insert r ((insert u K).erase q2)
                  = insert u (insert r (K.erase q2)) := by
                rw [Finset.erase_insert_of_ne (fun hc => hq2u hc.symm),
                  Finset.Insert.comm]
              have eY : insert r ((insert v K).erase q2)
                  = insert v (insert r (K.erase q2)) := by
                have hq2vne : v ≠ q2 := fun hc => hq2v hc.symm
                rw [Finset.erase_insert_of_ne hq2vne, Finset.Insert.comm]
              have ihh := ih (insert r (K.erase q2)) u v
                (by
                  simp only [Finset.mem_insert]
                  push_neg
                  exact ⟨fun h => hru h.symm,
                    fun h => hu (Finset.mem_of_mem_erase h)⟩)
                (by
                  simp only [Finset.mem_insert]
                  push_neg
                  exact ⟨fun h => hrv h.symm,
                    fun h => hv (Finset.mem_of_mem_erase h)⟩)
                huv
                (by
                  rw [← eX]
                  have h5 := Finset.card_insert_le r
                    ((insert u K).erase q2)
                  have hq2inX : q2 ∈ insert u K :=
                    Finset.mem_insert_of_mem hq2K
                  have h6 := Finset.card_erase_of_mem hq2inX
                  have h7 : 0 < (insert u K).card := h0X
                  omega)
                hnext2
              simp only [eX, eY] at hle ihh ⊢
              omega

/-! ### Set views of the policy steps -/

theorem toFinset_append_singleton (l : List α) (p : α) :
    (l ++ [p]).toFinset = insert p l.toFinset := by
  ext x
  simp [List.mem_toFinset, or_comm]

theorem toFinset_erase_of_nodup (mem : List α) (q : α) (h : mem.Nodup) :
    (mem.erase q).toFinset = mem.toFinset.erase q := by
  ext x
  simp [List.mem_toFinset, h.mem_erase_iff, Finset.mem_erase]

/-- The victim of the Optimal eviction scan maximises the next-use position
(`⊤` meaning never used again) among the resident pages. -/
theorem findVictim_nextUse_max (future : List α) (mem : List α) (q : α)
    (hq : findVictim future mem (-1) none = some q) :
    ∀ r ∈ mem, nextUse future r ≤ nextUse future q := by
  by_cases habs : ∃ f ∈ mem, f ∉ future
  · obtain ⟨f, hf, hfa⟩ := habs
    obtain ⟨l₁, q0, l₂, heq, hq0, hl⟩ :=
      exists_first_absent future mem f hf hfa
    have hq0eq : q = q0 := by
      have := findVictim_first_absent future l₁ hl q0 hq0 l₂
        (-1) (none : Option α)
      rw [heq, this] at hq
      exact (Option.some_inj.mp hq).symm
    subst hq0eq
    intro r _
    simp only [nextUse]
    rw [if_neg hq0]
    exact le_top
  · push_neg at habs
    cases mem with
    | nil => intro r hr; simp at hr
    | cons f fs =>
      have hf : f ∈ future := habs f (by simp)
      have hrest : ∀ x ∈ fs, x ∈ future := fun x hx =>
        habs x (List.mem_cons_of_mem f hx)
      obtain ⟨q1, heq, hqm, hfq, hall⟩ := findVictim_max future fs f hrest
      have hq1eq : q = q1 := by
        rw [findVictim] at hq
        rw [if_pos hf] at hq
        have hcmp : (-1 : Int) < (future.indexOf f : Int) := by
          have : (0 : Int) ≤ (future.indexOf f : Int) := Int.natCast_nonneg _
          omega
        rw [if_pos hcmp] at hq
        rw [heq] at hq
        exact (Option.some_inj.mp hq).symm
      subst hq1eq
      have hqfut : q ∈ future := by
        rcases hqm with rfl | hqm
        · exact hf
        · exact hrest q hqm
      intro r hr
      simp only [nextUse]
      rw [if_pos hqfut, if_pos (habs r hr)]
      have : future.indexOf r ≤ future.indexOf q := by
        rcases List.mem_cons.mp hr with rfl | hr
        · exact hfq
        · exact hall r hr
      exact_mod_cast this

/-! ### Lower bound: every demand-paging run costs at least the optimum -/

/-- Any policy whose step acts on the frame set as demand paging (unchanged
on a hit, admits on a miss with room, swaps one resident page on a miss
when full) incurs at least the offline optimum `cost`. -/
theorem cost_le_goRun (k : Nat) (step : σ → Nat → α → σ) (memOf : σ → List α)
    (hstep : ∀ s i p, (memOf s).Nodup → (memOf s).length ≤ k →
      (p ∈ memOf s → (memOf (step s i p)).toFinset = (memOf s).toFinset) ∧
      (p ∉ memOf s → (memOf s).length < k →
        (memOf (step s i p)).toFinset = insert p (memOf s).toFinset) ∧
      (p ∉ memOf s → ¬ (memOf s).length < k →
        ∃ q ∈ memOf s, (memOf (step s i p)).toFinset =
          insert p ((memOf s).toFinset.erase q)))
    (hinv : ∀ s i p, (memOf s).Nodup → (memOf s).length ≤ k →
      (memOf (step s i p)).Nodup ∧ (memOf (step s i p)).length ≤ k) :
    ∀ (ps : List α) (i : Nat) (s : σ), (memOf s).Nodup →
      (memOf s).length ≤ k →
      cost k ps (memOf s).toFinset ≤ (goRun step memOf ps i s).page_faults := by
  intro ps
  induction ps with
  | nil => intro i s _ _; simp [cost_nil, goRun]
  | cons p ps ih =>
    intro i s hnd hlen
    have hcardeq : (memOf s).toFinset.card = (memOf s).length :=
      List.toFinset_card_of_nodup hnd
    have hnext := hinv s i p hnd hlen
    have ihs := ih (i + 1) (step s i p) hnext.1 hnext.2
    by_cases hp : p ∈ memOf s
    · rw [cost_cons_hit k p ps _ (List.mem_toFinset.mpr hp)]
      rw [← (hstep s i p hnd hlen).1 hp]
      simp only [goRun, hp, if_true]
      omega
    · have hpC : p ∉ (memOf s).toFinset := fun hc =>
        hp (List.mem_toFinset.mp hc)
      by_cases hroom : (memOf s).length < k
      · rw [cost_cons_room k p ps _ hpC (by omega)]
        rw [← (hstep s i p hnd hlen).2.1 hp hroom]
        simp only [goRun, hp, if_false]
        omega
      · obtain ⟨q, hqmem, hset⟩ := (hstep s i p hnd hlen).2.2 hp hroom
        have hlen1 : 1 ≤ (memOf s).length :=
          List.length_pos.mpr (List.ne_nil_of_mem hqmem)
        have h0 : 0 < (memOf s).toFinset.card := by omega
        rw [cost_cons_full k p ps _ hpC (by omega) h0]
        have hle := Finset.inf'_le
          (fun r => cost k ps (insert p ((memOf s).toFinset.erase r)))
          (List.mem_toFinset.mpr hqmem)
        rw [← hset] at hle
        simp only [goRun, hp, if_false]
        omega

/-- The FIFO step acts on the frame set as demand paging. -/
theorem fifoStep_set (frames : Nat) (h1 : 1 ≤ frames) (mem : List α)
    (i : Nat) (p : α) (hnd : mem.Nodup) (hlen : mem.length ≤ frames) :
    (p ∈ mem → (fifoStep frames mem i p).toFinset = mem.toFinset) ∧
    (p ∉ mem → mem.length < frames →
      (fifoStep frames mem i p).toFinset = insert p mem.toFinset) ∧
    (p ∉ mem → ¬ mem.length < frames →
      ∃ q ∈ mem, (fifoStep frames mem i p).toFinset =
        insert p (mem.toFinset.erase q)) := by
  refine ⟨fun hp => by simp [fifoStep, hp], fun hp hroom => by
    simp only [fifoStep, hp, if_false, if_pos hroom]
    exact toFinset_append_singleton mem p, fun hp hroom => ?_⟩
  cases mem with
  | nil => simp at hroom; omega
  | cons m ms =>
    refine ⟨m, by simp, ?_⟩
    have hmms : m ∉ ms := (List.nodup_cons.mp hnd).1
    simp only [fifoStep, hp, hroom, if_false, List.tail_cons]
    rw [toFinset_append_singleton]
    congr 1
    rw [List.toFinset_cons, Finset.erase_insert (fun hc =>
      hmms (List.mem_toFinset.mp hc))]

/-- The LRU step acts on the frame set as demand paging. -/
theorem lruStep_set (frames : Nat) (h1 : 1 ≤ frames) (s : LruSt α)
    (i : Nat) (p : α) (hnd : s.mem.Nodup) (hlen : s.mem.length ≤ frames) :
    (p ∈ s.mem → (lruStep frames s i p).mem.toFinset = s.mem.toFinset) ∧
    (p ∉ s.mem → s.mem.length < frames →
      (lruStep frames s i p).mem.toFinset = insert p s.mem.toFinset) ∧
    (p ∉ s.mem → ¬ s.mem.length < frames →
      ∃ q ∈ s.mem, (lruStep frames s i p).mem.toFinset =
        insert p (s.mem.toFinset.erase q)) := by
  refine ⟨fun hp => ?_, fun hp hroom => ?_, fun hp hroom => ?_⟩
  · simp only [lruStep, hp, if_true]
    rw [toFinset_append_singleton, toFinset_erase_of_nodup _ _ hnd,
      Finset.insert_erase (List.mem_toFinset.mpr hp)]
  · simp only [lruStep, hp, if_false, if_pos hroom]
    exact toFinset_append_singleton s.mem p
  · cases hq : pyMin s.idx s.mem with
    | none =>
      exfalso
      have : s.mem = [] := by
        cases hm : s.mem with
        | nil => rfl
        | cons a l => rw [hm] at hq; simp [pyMin] at hq
      rw [this] at hroom
      simp at hroom
      omega
    | some q =>
      refine ⟨q, pyMin_mem hq, ?_⟩
      simp only [lruStep, hp, hroom, if_false, hq]
      rw [toFinset_append_singleton, toFinset_erase_of_nodup _ _ hnd]

/-! ### Upper bound: the program's Optimal run achieves the optimum -/

theorem optRun_le_cost (pages : List α) (frames : Nat) (h1 : 1 ≤ frames) :
    ∀ (ps : List α) (i : Nat) (mem : List α), pages.drop i = ps →
      mem.Nodup → mem.length ≤ frames →
      (goRun (optStep pages frames) id ps i mem).page_faults ≤
        cost frames ps mem.toFinset := by
  intro ps
  induction ps with
  | nil => intro i mem _ _ _; simp [cost_nil, goRun]
  | cons p ps ih =>
    intro i mem hdrop hnd hlen
    have hfut : pages.drop (i + 1) = ps := by
      rw [← List.tail_drop pages i, hdrop]
      rfl
    have hcardeq : mem.toFinset.card = mem.length :=
      List.toFinset_card_of_nodup hnd
    by_cases hp : p ∈ mem
    · rw [cost_cons_hit frames p ps _ (List.mem_toFinset.mpr hp)]
      have hstep : optStep pages frames mem i p = mem := by
        simp [optStep, hp]
      simp only [goRun, hp, if_true, id_eq]
      rw [hstep]
      have := ih (i + 1) mem hfut hnd hlen
      omega
    · have hpC : p ∉ mem.toFinset := fun hc => hp (List.mem_toFinset.mp hc)
      by_cases hroom : mem.length < frames
      · rw [cost_cons_room frames p ps _ hpC (by omega)]
        have hstep : optStep pages frames mem i p = mem ++ [p] := by
          simp [optStep, hp, hroom]
        simp only [goRun, hp, if_false, id_eq]
        rw [hstep]
        have hnd2 : (mem ++ [p]).Nodup := by
          simp [List.nodup_append, hnd, hp]
        have hlen2 : (mem ++ [p]).length ≤ frames := by simp; omega
        have := ih (i + 1) (mem ++ [p]) hfut hnd2 hlen2
        rw [toFinset_append_singleton] at this
        omega
      · have hne : mem ≠ [] := by
          intro hc
          rw [hc] at hroom
          simp at hroom
          omega
        obtain ⟨m, ms, hms⟩ := List.exists_cons_of_ne_nil hne
        obtain ⟨q, hvic⟩ : ∃ q,
            findVictim (pages.drop (i + 1)) mem (-1) none = some q := by
          rw [hms]
          exact findVictim_entry_isSome _ m ms
        have hqmem : q ∈ mem := by
          rcases findVictim_mem _ _ _ _ _ hvic with h | h
          · exact h
          · exact absurd h (by simp)
        have hstep : optStep pages frames mem i p = mem.erase q ++ [p] := by
          simp only [optStep, hp, hroom, if_false, hvic]
        have hmax := findVictim_nextUse_max (pages.drop (i + 1)) mem q hvic
        rw [hfut] at hmax
        have h0 : 0 < mem.toFinset.card := by
          have : 1 ≤ mem.length := List.length_pos.mpr hne
          omega
        rw [cost_cons_full frames p ps _ hpC (by omega) h0]
        simp only [goRun, hp, if_false, id_eq]
        rw [hstep]
        have hnd2 : (mem.erase q ++ [p]).Nodup := by
          have hns : p ∉ mem.erase q := fun hc =>
            hp ((hnd.mem_erase_iff.mp hc).2)
          simp [List.nodup_append, hnd.erase q, hns]
        have hlen2 : (mem.erase q ++ [p]).length ≤ frames := by
          have := List.length_erase_of_mem hqmem
          simp only [List.length_append, List.length_cons, List.length_nil,
            this]
          have : 1 ≤ mem.length := List.length_pos.mpr hne
          omega
        have hrest := ih (i + 1) (mem.erase q ++ [p]) hfut hnd2 hlen2
        rw [toFinset_append_singleton, toFinset_erase_of_nodup _ _ hnd]
          at hrest
        have hmin : cost frames ps (insert p (mem.toFinset.erase q)) ≤
            mem.toFinset.inf' (Finset.card_pos.mp h0)
              (fun r => cost frames ps (insert p (mem.toFinset.erase r))) := by
          apply Finset.le_inf'
          intro r hr
          have hrm : r ∈ mem := List.mem_toFinset.mp hr
          by_cases hrq : r = q
          · subst hrq
            exact Nat.le_refl _
          · -- exchange: the victim q is used no sooner than r
            have hqp : q ≠ p := fun hc => hp (by rw [← hc]; exact hqmem)
            have hrp : r ≠ p := fun hc => hp (by rw [← hc]; exact hrm)
            have hrq2 : r ∈ mem.toFinset.erase q :=
              Finset.mem_erase.mpr ⟨hrq, List.mem_toFinset.mpr hrm⟩
            have hx := cost_exchange frames ps
              (insert p ((mem.toFinset.erase q).erase r)) r q
              (by
                simp only [Finset.mem_insert]
                push_neg
                exact ⟨hrp, fun hc => (Finset.mem_erase.mp hc).1 rfl⟩)
              (by
                simp only [Finset.mem_insert]
                push_neg
                refine ⟨hqp, fun hc => ?_⟩
                have := Finset.mem_of_mem_erase hc
                exact (Finset.mem_erase.mp this).1 rfl)
              hrq
              (by
                rw [Finset.Insert.comm, Finset.insert_erase hrq2]
                have hcard2 : (insert p (mem.toFinset.erase q)).card ≤
                    frames := by
                  have := Finset.card_insert_le p (mem.toFinset.erase q)
                  have := Finset.card_erase_of_mem
                    (List.mem_toFinset.mpr hqmem)
                  omega
                exact hcard2)
              (hmax r hrm)
            have e1 : insert r (insert p ((mem.toFinset.erase q).erase r))
                = insert p (mem.toFinset.erase q) := by
              rw [Finset.Insert.comm, Finset.insert_erase hrq2]
            have e2 : insert q (insert p ((mem.toFinset.erase q).erase r))
                = insert p (mem.toFinset.erase r) := by
              rw [Finset.Insert.comm]
              congr 1
              rw [Finset.erase_right_comm,
                Finset.insert_erase (Finset.mem_erase.mpr
                  ⟨fun hc => hrq hc.symm, List.mem_toFinset.mpr hqmem⟩)]
            rw [e1, e2] at hx
            exact hx
        omega

/-! ### C8: Optimal is at most FIFO and LRU on every input -/

/-- C8: for every trace and capacity `≥ 1`, the fault count of the Optimal
policy is at most both the FIFO fault count and the LRU fault count on the
same inputs (the program's Optimal run achieves the offline demand-paging
optimum, which lower-bounds every demand-paging run). -/
theorem optimal_fault_count_minimal {α : Type} [DecidableEq α]
    (pages : List α) (frames : Nat) (h1 : 1 ≤ frames) :
    (optimal_page_replacement pages frames).page_faults ≤
        (fifo_page_replacement pages frames).page_faults ∧
    (optimal_page_replacement pages frames).page_faults ≤
        (lru_page_replacement pages frames).page_faults := by
  have hopt := optRun_le_cost pages frames h1 pages 0 [] rfl
    List.nodup_nil (by simp)
  have hfifo := cost_le_goRun frames (fifoStep frames) id
    (fun s i p hnd hlen => fifoStep_set frames h1 s i p hnd hlen)
    (fun s i p hnd hlen =>
      fifoStep_inv frames h1 s i p hnd hlen)
    pages 0 [] List.nodup_nil (by simp)
  have hlru := cost_le_goRun frames (lruStep frames) LruSt.mem
    (fun s i p hnd hlen => lruStep_set frames h1 s i p hnd hlen)
    (fun s i p hnd hlen => lruStep_inv frames h1 s i p hnd hlen)
    pages 0 ⟨[], fun _ => 0⟩ List.nodup_nil (by simp)
  exact ⟨le_trans hopt hfifo, le_trans hopt hlru⟩

/-- C8 witness: on the trace `[A,B,C,D,A,B,E]` with capacity 3 the bound is
instantiated (Optimal faults 5, FIFO faults 7, LRU faults 7 there). -/
theorem optimal_fault_count_minimal_witness :
    (optimal_page_replacement
        (["A", "B", "C", "D", "A", "B", "E"] : List String) 3).page_faults ≤
      (fifo_page_replacement
        (["A", "B", "C", "D", "A", "B", "E"] : List String) 3).page_faults ∧
    (optimal_page_replacement
        (["A", "B", "C", "D", "A", "B", "E"] : List String) 3).page_faults ≤
      (lru_page_replacement
        (["A", "B", "C", "D", "A", "B", "E"] : List String) 3).page_faults :=
  optimal_fault_count_minimal ["A", "B", "C", "D", "A", "B", "E"] 3
    (by decide)

end VMM
